import Mathlib

/-!
Verification of the HH vacancy ingestion-and-aggregation pipeline.

Shallow embedding of:
  * `src/hh_api.py`   — `HeadHunterAPI.get_vacancies` / `get_all_vacancies`
    (pagination loop), `_parse_salary`, `_parse_vacancies`;
  * `db_manager.py`   — `DatabaseManager.save_company`, `save_vacancy`,
    `keep_only_top_companies`, `get_avg_salary`, `get_vacancies_with_keyword`,
    `_format_salary`;
  * `main.py`         — the ingestion loop of `main`.

Numeric database values (`INTEGER`, SQL `numeric`) are modelled by `Int` / `ℚ`
(PostgreSQL `numeric` arithmetic is exact; only the final Python `float()` cast
is outside the model).  The store is modelled as lists of rows; each SQL
statement becomes a pure function on that state, and statements that can raise
(NOT NULL / foreign-key violations) return `Option`.
-/

namespace HH

/-! ## Pagination (`src/hh_api.py`)

`api pp pg` models the remote service: the list of items it returns for a
request carrying `per_page = pp` and `page = pg`.  The pipeline never inspects
anything else of the HTTP response that matters to the claims.  -/

/-- `get_vacancies` caps the `per_page` parameter it actually sends:
`min(kwargs.get("per_page", 100), 100)` (hh_api.py line 80). -/
def sent_per_page (per_page : Nat) : Nat := min per_page 100

/-- One page request, as issued by `HeadHunterAPI.get_vacancies`: the requested
page size is capped at 100 before being sent. -/
def get_vacancies (api : Nat → Nat → List α) (per_page page : Nat) : List α :=
  api (sent_per_page per_page) page

/-- The `while True` loop body of `HeadHunterAPI.get_all_vacancies`
(hh_api.py lines 222-239), with explicit fuel for the unbounded loop.
Returns the accumulated items together with the number of page requests made.
`if not vacancies: break` comes before `extend`; the short-page check
`len(vacancies) < per_page` compares against the *uncapped* `per_page`. -/
def get_all_vacancies_go (api : Nat → Nat → List α) (per_page : Nat) :
    Nat → Nat → List α → Nat → List α × Nat
  | 0, _, acc, reqs => (acc, reqs)
  | fuel + 1, page, acc, reqs =>
    let vacancies := get_vacancies api per_page page
    if vacancies.isEmpty then (acc, reqs + 1)
    else if vacancies.length < per_page then (acc ++ vacancies, reqs + 1)
    else get_all_vacancies_go api per_page fuel (page + 1) (acc ++ vacancies) (reqs + 1)

/-- `HeadHunterAPI.get_all_vacancies search_query per_page`: page-by-page fetch
starting at page 0 with an empty accumulator. -/
def get_all_vacancies (api : Nat → Nat → List α) (per_page fuel : Nat) : List α × Nat :=
  get_all_vacancies_go api per_page fuel 0 [] 0

/-- Fixture: a server holding exactly 100 items, all on page 0. -/
def api_hundred : Nat → Nat → List Nat := fun _ pg => if pg = 0 then List.range 100 else []

/-- Fixture: a server holding exactly 40 items, all on page 0. -/
def api_forty : Nat → Nat → List Nat := fun _ pg => if pg = 0 then List.range 40 else []

/-- Fixture: a server answering any request with as many items as fit the
(capped) page size, on pages 0 and 1; page 1 holds 7 more items. -/
def api_big : Nat → Nat → List Nat :=
  fun pp pg => if pg = 0 then List.range (min pp 100) else List.range (min pp 7)

/-! ## Record normalisation (`src/hh_api.py`, `_parse_salary` / `_parse_vacancies`)

The four salary fields of the raw `salary` sub-object.  A raw record whose
`salary` is JSON `null` or absent is modelled as `none`; Python also treats an
*empty* salary dict as falsy, but that case is observationally identical to a
dict of explicit `None`s, so no separate constructor is needed.  -/

structure SalaryFields where
  sfrom : Option Int
  sto : Option Int
  currency : Option String
  gross : Option Bool
deriving DecidableEq

/-- `HeadHunterAPI._parse_salary`: `if not salary_data: return {}` followed by
verbatim `.get` copies of `from` / `to` / `currency` / `gross`.  The empty-dict
return means every later `.get` yields `None`, i.e. all four fields absent. -/
def _parse_salary : Option SalaryFields → SalaryFields
  | none => ⟨none, none, none, none⟩
  | some sd => ⟨sd.sfrom, sd.sto, sd.currency, sd.gross⟩

/-- One raw API item, restricted to the keys `_parse_vacancies` reads.
`employer_id` stands for `vacancy.get("employer", {}).get("id")` (absent
employer object or absent key both give `none`); similarly for the other
nested lookups. -/
structure RawVacancy where
  id : Option Int
  name : Option String
  alternate_url : Option String
  employer_id : Option Int
  employer_name : Option String
  employer_alternate_url : Option String
  salary : Option SalaryFields
  experience_name : Option String
  employment_name : Option String
  schedule_name : Option String
  description : Option String
  area_name : Option String
  published_at : Option String
deriving DecidableEq

/-- The dictionary `_parse_vacancies` builds for one raw item (its `snippet`
passthrough is omitted: nothing downstream reads it). -/
structure ParsedVacancy where
  id : Option Int
  name : String
  url : String
  company_id : Option Int
  company : String
  company_url : String
  salary_from : Option Int
  salary_to : Option Int
  salary_currency : Option String
  salary_gross : Option Bool
  experience : String
  employment : String
  schedule : String
  description : String
  area : String
  published_at : String
  query : String
deriving DecidableEq

/-- The body of the `for vacancy in raw_vacancies` loop of
`HeadHunterAPI._parse_vacancies` for one item.  The HTML cleanup
(`_clean_html`) and the ISO-timestamp reformat (`datetime.fromisoformat` +
`strftime`, with parse failures absorbed to `""`) are abstracted as the
function parameters `cleanHtml` and `normTs`: no claim depends on their
internals, and every theorem below holds for all instantiations. -/
def parse_one_vacancy (cleanHtml : String → String) (normTs : String → String)
    (v : RawVacancy) : ParsedVacancy :=
  let salary := _parse_salary v.salary
  { id := v.id
    name := v.name.getD ""
    url := v.alternate_url.getD ""
    company_id := v.employer_id
    company := v.employer_name.getD ""
    company_url := v.employer_alternate_url.getD ""
    salary_from := salary.sfrom
    salary_to := salary.sto
    salary_currency := salary.currency
    salary_gross := salary.gross
    experience := v.experience_name.getD ""
    employment := v.employment_name.getD ""
    schedule := v.schedule_name.getD ""
    description := cleanHtml (v.description.getD "")
    area := v.area_name.getD ""
    published_at :=
      match v.published_at with
      | none => ""
      | some ts => if ts = "" then "" else normTs ts
    query := "" }

/-- `HeadHunterAPI._parse_vacancies` over a page of raw items. -/
def _parse_vacancies (cleanHtml : String → String) (normTs : String → String)
    (raws : List RawVacancy) : List ParsedVacancy :=
  raws.map (parse_one_vacancy cleanHtml normTs)

/-! ## Store (`db_manager.py`)

Rows of the two tables.  `id` columns are `INTEGER PRIMARY KEY`; nullable
salary columns are `Option`; the text columns receive the (always-string)
values the ingestion pipeline supplies. -/

structure Company where
  id : Int
  name : String
  url : String
deriving DecidableEq

structure Vacancy where
  id : Int
  company_id : Int
  name : String
  url : String
  salary_from : Option Int
  salary_to : Option Int
  salary_currency : Option String
  salary_gross : Option Bool
  experience : String
  employment : String
  schedule : String
  description : String
  area : String
  published_at : String
  query : String
deriving DecidableEq

/-- The persisted state: the `companies` and `vacancies` tables. -/
structure Store where
  companies : List Company
  vacancies : List Vacancy
deriving DecidableEq

/-- The dictionary `main.extract_company_from_vacancy` builds; its `id` comes
from the parsed record and may be `None`. -/
structure CompanyData where
  id : Option Int
  name : String
  url : String
deriving DecidableEq

/-- The dictionary `main.extract_vacancy_data` builds: the row handed to
`save_vacancy`, with possibly-`None` key columns. -/
structure VacancyData where
  id : Option Int
  company_id : Option Int
  name : String
  url : String
  salary_from : Option Int
  salary_to : Option Int
  salary_currency : Option String
  salary_gross : Option Bool
  experience : String
  employment : String
  schedule : String
  description : String
  area : String
  published_at : String
  query : String
deriving DecidableEq

/-- `DatabaseManager.save_company`: `INSERT ... ON CONFLICT (id) DO UPDATE SET
name = EXCLUDED.name, url = EXCLUDED.url RETURNING id`.  A `NULL` id violates
the primary-key NOT NULL constraint (`none` = raised error). -/
def save_company (s : Store) (c : CompanyData) : Option (Store × Int) :=
  match c.id with
  | none => none
  | some cid =>
    if s.companies.any (fun r => r.id == cid) then
      some ({ s with companies :=
        s.companies.map (fun r => if r.id == cid then { r with name := c.name, url := c.url } else r) },
        cid)
    else
      some ({ s with companies := s.companies ++ [⟨cid, c.name, c.url⟩] }, cid)

/-- `DatabaseManager.save_vacancy`: `INSERT ... ON CONFLICT (id) DO NOTHING`.
A `NULL` id or company_id violates NOT NULL; a conflicting id is silently
skipped (first write wins) — the conflict arbiter fires before the foreign-key
check, so a duplicate insert never raises; a fresh id with an unknown
company violates the foreign key (`none`). -/
def save_vacancy (s : Store) (v : VacancyData) : Option Store :=
  match v.id, v.company_id with
  | some vid, some cid =>
    if s.vacancies.any (fun r => r.id == vid) then some s
    else if s.companies.any (fun c => c.id == cid) then
      some { s with vacancies := s.vacancies ++
        [⟨vid, cid, v.name, v.url, v.salary_from, v.salary_to, v.salary_currency, v.salary_gross,
          v.experience, v.employment, v.schedule, v.description, v.area, v.published_at, v.query⟩] }
    else none
  | _, _ => none

/-- `COUNT(v.id)` for one company of the `GROUP BY` aggregates. -/
def company_vacancy_count (s : Store) (cid : Int) : Nat :=
  (s.vacancies.filter (fun v => v.company_id == cid)).length

/-- The grouped rows `(c.id, COUNT(v.id))` of the top-companies query: the
`LEFT JOIN` keeps every company, with count 0 when it has no vacancies. -/
def company_counts (s : Store) : List (Int × Nat) :=
  s.companies.map (fun c => (c.id, company_vacancy_count s c.id))

/-- `ORDER BY COUNT(v.id) DESC`: descending order on the count component.
SQL leaves the relative order of equal counts unspecified; the model fixes one
order, and every theorem below only uses count-descending facts that hold for
any tie-break. -/
def count_ge (a b : Int × Nat) : Prop := b.2 ≤ a.2

instance : DecidableRel count_ge := fun a b => inferInstanceAs (Decidable (b.2 ≤ a.2))

instance : IsTotal (Int × Nat) count_ge := ⟨fun a b => le_total b.2 a.2⟩

instance : IsTrans (Int × Nat) count_ge := ⟨fun _ _ _ h1 h2 => le_trans h2 h1⟩

/-- The `SELECT c.id ... ORDER BY COUNT(v.id) DESC LIMIT %s` subquery of
`keep_only_top_companies`. -/
def top_company_ids (s : Store) (limit : Nat) : List Int :=
  (((company_counts s).insertionSort count_ge).take limit).map Prod.fst

/-- `DatabaseManager.keep_only_top_companies`: fetch the top-`limit` ids; if
the list is empty (`if not top_ids`) return without touching the tables;
otherwise `DELETE FROM vacancies WHERE company_id NOT IN top_ids` and
`DELETE FROM companies WHERE id NOT IN top_ids`. -/
def keep_only_top_companies (s : Store) (limit : Nat) : Store :=
  let top := top_company_ids s limit
  if top.isEmpty then s
  else
    { companies := s.companies.filter (fun c => top.contains c.id),
      vacancies := s.vacancies.filter (fun v => top.contains v.company_id) }

/-! ## Average salary (`DatabaseManager.get_avg_salary`)

PostgreSQL evaluates `(salary_from + salary_to) / 2.0` and `AVG` in exact
`numeric` arithmetic, modelled by `ℚ` (only the final Python `float()` cast is
outside the model). -/

/-- The `WHERE salary_from IS NOT NULL OR salary_to IS NOT NULL` predicate. -/
def has_salary (v : Vacancy) : Bool := v.salary_from.isSome || v.salary_to.isSome

/-- The `CASE` expression: representative salary value of one row. -/
def rep_salary (v : Vacancy) : Option ℚ :=
  match v.salary_from, v.salary_to with
  | some f, some t => some (((f : ℚ) + (t : ℚ)) / 2)
  | some f, none => some (f : ℚ)
  | none, some t => some (t : ℚ)
  | none, none => none

/-- `DatabaseManager.get_avg_salary`: `AVG(CASE ...)` over the rows passing
the `WHERE` filter; `AVG` of zero rows is SQL `NULL`, which the Python wrapper
turns into `0.0`. -/
def get_avg_salary (s : Store) : ℚ :=
  let vals := (s.vacancies.filter has_salary).filterMap rep_salary
  if vals.length = 0 then 0 else vals.sum / (vals.length : ℚ)

/-! ## Salary formatting (`DatabaseManager._format_salary`) -/

/-- Python `str.strip()` on the leading side, at character-list level. -/
def trimList (l : List Char) : List Char :=
  ((l.dropWhile Char.isWhitespace).reverse.dropWhile Char.isWhitespace).reverse

/-- Python `str.strip()`. -/
def pyStrip (s : String) : String := String.mk (trimList s.data)

/-- Python `currency or ''`. -/
def orEmpty : Option String → String
  | none => ""
  | some c => c

/-- `DatabaseManager._format_salary`: the f-strings
`f"от {salary_from} до {salary_to} {currency or ''}".strip()` etc., with the
fixed fallback string `"не указана"` when both bounds are absent. -/
def _format_salary (salary_from salary_to : Option Int) (currency : Option String) : String :=
  match salary_from, salary_to with
  | some f, some t =>
    pyStrip ("от " ++ toString f ++ " до " ++ toString t ++ " " ++ orEmpty currency)
  | some f, none => pyStrip ("от " ++ toString f ++ " " ++ orEmpty currency)
  | none, some t => pyStrip ("до " ++ toString t ++ " " ++ orEmpty currency)
  | none, none => "не указана"

/-! ## Keyword search (`DatabaseManager.get_vacancies_with_keyword`)

`WHERE LOWER(v.name) LIKE LOWER('%' || keyword || '%') ORDER BY v.name`.
SQL `LIKE` treats `%` as any-sequence, `_` as any-single-character, and
backslash as the default escape character; the keyword is interpolated into
the pattern unescaped. -/

/-- SQL `LOWER`, modelled on the ASCII range (both the stored title and the
pattern pass through the same function, so the claims below are insensitive
to the exact collation). -/
def lowerChar (c : Char) : Char :=
  if 65 ≤ c.toNat ∧ c.toNat ≤ 90 then Char.ofNat (c.toNat + 32) else c

/-- `anySuffix f s` is true when `f` accepts some suffix of `s`
(including `s` itself and `[]`). -/
def anySuffix (f : List Char → Bool) : List Char → Bool
  | [] => f []
  | c :: t => f (c :: t) || anySuffix f t

/-- SQL `LIKE` pattern matching against a whole string:
`%` matches any sequence, `_` any single character, `\` escapes the next
pattern character; any other pattern character matches itself.  (A pattern
ending in a bare `\` is a PostgreSQL error; it never arises from the
`%…%` patterns built here and is modelled as a non-match.) -/
def likeMatch : List Char → List Char → Bool
  | [], s => s.isEmpty
  | p :: ps, s =>
    if p = '%' then anySuffix (likeMatch ps) s
    else if p = '_' then !s.isEmpty && likeMatch ps s.tail
    else if p = '\\' then
      match ps with
      | [] => false
      | q :: ps' => (s.head?.any (fun c => c == q)) && likeMatch ps' s.tail
    else (s.head?.any (fun c => c == p)) && likeMatch ps s.tail

/-- `startsWithL n h`: `h` begins with the literal characters `n`. -/
def startsWithL : List Char → List Char → Bool
  | [], _ => true
  | _ :: _, [] => false
  | n :: ns, h :: hs => h == n && startsWithL ns hs

/-- Literal (case-sensitive) substring containment at character level. -/
def containsSub (needle hay : List Char) : Bool := anySuffix (startsWithL needle) hay

/-- A keyword free of the `LIKE` metacharacters `%`, `_` and `\`. -/
def noMeta (l : List Char) : Prop := ∀ c ∈ l, c ≠ '%' ∧ c ≠ '_' ∧ c ≠ '\\'

instance (l : List Char) : Decidable (noMeta l) := List.decidableBAll _ l

/-- One output row of the keyword query after the Python post-processing
(formatted salary attached, raw salary columns dropped). -/
structure VacancyView where
  company_name : String
  vacancy_name : String
  url : String
  salary : String
deriving DecidableEq

/-- Row constructor for the keyword query output. -/
def vacancy_view (c : Company) (v : Vacancy) : VacancyView :=
  ⟨c.name, v.name, v.url, _format_salary v.salary_from v.salary_to v.salary_currency⟩

/-- `ORDER BY v.name` on joined rows (ties left unspecified by SQL; the
model fixes one order and the theorems state only order-by-name facts). -/
def name_le (a b : Company × Vacancy) : Prop := a.2.name ≤ b.2.name

instance : DecidableRel name_le := fun a b => inferInstanceAs (Decidable (a.2.name ≤ b.2.name))

instance : IsTotal (Company × Vacancy) name_le := ⟨fun a b => le_total a.2.name b.2.name⟩

instance : IsTrans (Company × Vacancy) name_le := ⟨fun _ _ _ h1 h2 => le_trans h1 h2⟩

/-- The `JOIN companies c ON v.company_id = c.id` rows, in table order. -/
def joined_rows (s : Store) : List (Company × Vacancy) :=
  s.vacancies.filterMap (fun v =>
    (s.companies.find? (fun c => c.id == v.company_id)).map (fun c => (c, v)))

/-- `DatabaseManager.get_vacancies_with_keyword`: join, `LIKE` filter on the
lowered title against the lowered `%keyword%` pattern, `ORDER BY v.name`,
then attach the formatted salary. -/
def get_vacancies_with_keyword (s : Store) (keyword : String) : List VacancyView :=
  let pat := ("%" ++ keyword ++ "%").data.map lowerChar
  let matched := (joined_rows s).filter (fun cv => likeMatch pat (cv.2.name.data.map lowerChar))
  (List.insertionSort name_le matched).map (fun cv => vacancy_view cv.1 cv.2)

/-! ## Ingestion orchestrator (`main.py`) -/

/-- Python truthiness of `company["id"]` (`None` and `0` are falsy). -/
def company_id_truthy : Option Int → Bool
  | none => false
  | some n => n != 0

/-- `main.extract_company_from_vacancy`. -/
def extract_company_from_vacancy (p : ParsedVacancy) : CompanyData :=
  ⟨p.company_id, p.company, p.company_url⟩

/-- `main.extract_vacancy_data`: the posting row with the run's search query
attached as its `query` column. -/
def extract_vacancy_data (p : ParsedVacancy) (search_query : String) : VacancyData :=
  ⟨p.id, p.company_id, p.name, p.url, p.salary_from, p.salary_to, p.salary_currency,
    p.salary_gross, p.experience, p.employment, p.schedule, p.description, p.area,
    p.published_at, search_query⟩

/-- The `for vac in vacancies` loop of `main.main` (lines 116-123): records
whose `company["id"]` is falsy are skipped (their parsed id reported, the
store untouched) and the loop continues; otherwise the company is upserted
and then the posting inserted.  A store error (`none` from an insert)
propagates and aborts the run. -/
def ingest_vacancies (db : Store) (search_query : String) :
    List ParsedVacancy → Option (Store × List (Option Int))
  | [] => some (db, [])
  | p :: rest =>
    if company_id_truthy p.company_id then
      match save_company db (extract_company_from_vacancy p) with
      | none => none
      | some (db1, _) =>
        match save_vacancy db1 (extract_vacancy_data p search_query) with
        | none => none
        | some db2 => ingest_vacancies db2 search_query rest
    else
      (ingest_vacancies db search_query rest).map (fun r => (r.1, p.id :: r.2))

/-! ## Fixtures for witnesses and counterexamples -/

/-- Vacancy-row builder with the claim-irrelevant text columns defaulted. -/
def mkVac (i cid : Int) (nm : String) (sf st : Option Int) (cur : Option String) : Vacancy :=
  ⟨i, cid, nm, "", sf, st, cur, none, "", "", "", "", "", "", ""⟩

/-- Fixture for C1: postings `{100,200}`, `{50,–}`, `{–,–}`. -/
def store_c1 : Store :=
  ⟨[⟨1, "A", ""⟩],
   [mkVac 1 1 "v1" (some 100) (some 200) none,
    mkVac 2 1 "v2" (some 50) none none,
    mkVac 3 1 "v3" none none none]⟩

/-- Fixture: a raw record with no salary sub-object. -/
def raw_no_salary : RawVacancy :=
  ⟨some 1, some "t", none, some 2, some "E", none, none, none, none, none, none, none, none⟩

/-- Fixture: a raw record carrying a full salary sub-object. -/
def raw_with_salary : RawVacancy :=
  ⟨some 1, some "t", none, some 2, some "E", none,
    some ⟨some 100, some 200, some "RUR", some false⟩, none, none, none, none, none, none⟩

/-- Fixture store for C4: one company, no vacancies. -/
def store_c4 : Store := ⟨[⟨1, "A", ""⟩], []⟩

/-- Fixture: first insert of posting 10. -/
def vd_c4_first : VacancyData :=
  ⟨some 10, some 1, "x", "", some 5, none, none, none, "", "", "", "", "", "", "q1"⟩

/-- Fixture: re-ingestion of posting 10 with different field values. -/
def vd_c4_second : VacancyData :=
  ⟨some 10, some 1, "y", "", some 999, none, none, none, "", "", "", "", "", "", "q2"⟩

/-- Fixture: `store_c4` after the first insert. -/
def store_c4' : Store :=
  ⟨[⟨1, "A", ""⟩], [⟨10, 1, "x", "", some 5, none, none, none, "", "", "", "", "", "", "q1"⟩]⟩

/-- Fixture: a parsed posting with no employer identifier. -/
def pv_skip : ParsedVacancy :=
  ⟨some 7, "n", "", none, "", "", none, none, none, none, "", "", "", "", "", "", ""⟩

/-- Fixture: a well-formed parsed posting for employer 3. -/
def pv_ok : ParsedVacancy :=
  ⟨some 8, "vac", "", some 3, "Comp", "", some 10, none, none, none, "", "", "", "", "", "", ""⟩

/-- Fixture for C5: employers A(3 postings), B(1), C(5). -/
def store_c5 : Store :=
  ⟨[⟨1, "A", ""⟩, ⟨2, "B", ""⟩, ⟨3, "C", ""⟩],
   [mkVac 1 1 "a1" none none none, mkVac 2 1 "a2" none none none,
    mkVac 3 1 "a3" none none none, mkVac 4 2 "b1" none none none,
    mkVac 5 3 "c1" none none none, mkVac 6 3 "c2" none none none,
    mkVac 7 3 "c3" none none none, mkVac 8 3 "c4" none none none,
    mkVac 9 3 "c5" none none none]⟩

/-- Fixture: `store_c5` after `keep_only_top_companies 2`: B and its posting
are gone, A and C keep all of theirs. -/
def store_c5_after : Store :=
  ⟨[⟨1, "A", ""⟩, ⟨3, "C", ""⟩],
   [mkVac 1 1 "a1" none none none, mkVac 2 1 "a2" none none none,
    mkVac 3 1 "a3" none none none,
    mkVac 5 3 "c1" none none none, mkVac 6 3 "c2" none none none,
    mkVac 7 3 "c3" none none none, mkVac 8 3 "c4" none none none,
    mkVac 9 3 "c5" none none none]⟩

/-- Fixture for the C5 counterexample: one employer, no postings. -/
def store_c5x : Store := ⟨[⟨1, "A", ""⟩], []⟩

/-- Fixture for C8: one employer with a single posting titled "x". -/
def store_c8 : Store := ⟨[⟨1, "A", ""⟩], [mkVac 1 1 "x" none none none]⟩

end HH

namespace HH

/-- Pagination loop invariant: if pages `page..page+n-1` are full
(length exactly `per_page`) and page `page+n` is short, the loop consumes
exactly those `n+1` pages and returns their concatenation. -/
theorem get_all_vacancies_go_spec (api : Nat → Nat → List α) (per_page : Nat) :
    ∀ (n fuel page : Nat) (acc : List α) (reqs : Nat),
      (∀ k, k < n → (get_vacancies api per_page (page + k)).length = per_page) →
      (get_vacancies api per_page (page + n)).length < per_page →
      n < fuel →
      get_all_vacancies_go api per_page fuel page acc reqs =
        (acc ++ ((List.range (n + 1)).map (fun k => get_vacancies api per_page (page + k))).flatten,
          reqs + (n + 1)) := by
  intro n
  induction n with
  | zero =>
    intro fuel page acc reqs _ hlast hfuel
    match fuel, hfuel with
    | fuel + 1, _ =>
      simp only [get_all_vacancies_go]
      by_cases hnil : get_vacancies api per_page page = []
      · simp [hnil]
      · have hlen : (get_vacancies api per_page page).length < per_page := by
          simpa using hlast
        have hr : List.range 1 = [0] := rfl
        simp [List.isEmpty_iff, hnil, hlen, hr]
  | succ m ih =>
    intro fuel page acc reqs hfull hlast hfuel
    match fuel, hfuel with
    | fuel + 1, hfuel =>
      have h0 : (get_vacancies api per_page page).length = per_page := by
        simpa using hfull 0 (Nat.succ_pos m)
      have hpos : 0 < per_page := by
        have := hlast
        omega
      have hnil : ¬ (get_vacancies api per_page page).isEmpty = true := by
        rw [List.isEmpty_iff]
        intro h
        rw [h] at h0
        simp at h0
        omega
      have hshort : ¬ (get_vacancies api per_page page).length < per_page := by omega
      simp only [get_all_vacancies_go, if_neg hnil, if_neg hshort]
      have hfull' : ∀ k, k < m → (get_vacancies api per_page (page + 1 + k)).length = per_page := by
        intro k hk
        have := hfull (k + 1) (by omega)
        simpa [Nat.add_comm, Nat.add_assoc, Nat.add_left_comm] using this
      have hlast' : (get_vacancies api per_page (page + 1 + m)).length < per_page := by
        have := hlast
        have harith : page + 1 + m = page + (m + 1) := by omega
        rw [harith]
        exact this
      have := ih fuel (page + 1) (acc ++ get_vacancies api per_page page) (reqs + 1)
        hfull' hlast' (by omega)
      have hflat :
          ((List.range (m + 1 + 1)).map (fun k => get_vacancies api per_page (page + k))).flatten =
            get_vacancies api per_page page ++
              ((List.range (m + 1)).map (fun k => get_vacancies api per_page (page + 1 + k))).flatten := by
        rw [List.range_succ_eq_map]
        simp only [List.map_cons, List.map_map, List.flatten_cons, Nat.add_zero]
        congr 1
        congr 1
        apply List.map_congr_left
        intro k _
        simp only [Function.comp]
        congr 1
        omega
      rw [this, hflat, ← List.append_assoc]
      have hreq : reqs + 1 + (m + 1) = reqs + (m + 1 + 1) := by omega
      rw [hreq]

/-- C2: `get_all_vacancies` requests pages with increasing index starting at 0
and stops exactly at the first page that returns zero items or fewer items
than the requested page size; it returns the concatenation of all pages
fetched, after exactly `n + 1` page requests when pages `0..n-1` are full and
page `n` is the first short (possibly empty) page. -/
theorem get_all_vacancies_pages (api : Nat → Nat → List α) (per_page n fuel : Nat)
    (hfull : ∀ k, k < n → (get_vacancies api per_page k).length = per_page)
    (hlast : (get_vacancies api per_page n).length < per_page)
    (hfuel : n < fuel) :
    get_all_vacancies api per_page fuel =
      (((List.range (n + 1)).map (get_vacancies api per_page)).flatten, n + 1) := by
  have h := get_all_vacancies_go_spec api per_page n fuel 0 [] 0
    (by simpa using hfull) (by simpa using hlast) hfuel
  simpa [get_all_vacancies] using h

/-- Witness for C2: with page size 100, a full first page (100 items) followed
by an empty page yields exactly 100 results after two page requests; a first
page of 40 items yields exactly 40 results after one page request. -/
theorem get_all_vacancies_pages_witness :
    get_all_vacancies api_hundred 100 2 = (List.range 100, 2) ∧
    get_all_vacancies api_forty 100 1 = (List.range 40, 1) := by
  constructor
  · have h := get_all_vacancies_pages api_hundred 100 1 2
      (by decide) (by decide) (by decide)
    rw [h]
    decide
  · have h := get_all_vacancies_pages api_forty 100 0 1
      (by decide) (by decide) (by decide)
    rw [h]
    decide

/-- C10: when the requested page size exceeds 100, each page request is capped
to 100 items, but the stop condition compares against the uncapped size, so
the loop always stops after the very first page and returns at most 100
results — even when further pages exist. -/
theorem get_all_vacancies_cap (api : Nat → Nat → List α) (per_page fuel : Nat)
    (hbig : 100 < per_page)
    (hresp : ∀ pp pg, (api pp pg).length ≤ pp)
    (hfuel : 0 < fuel) :
    sent_per_page per_page = 100 ∧
    get_all_vacancies api per_page fuel = (api 100 0, 1) ∧
    (api 100 0).length ≤ 100 := by
  have hsent : sent_per_page per_page = 100 := by
    simp only [sent_per_page]
    exact Nat.min_eq_right (Nat.le_of_lt hbig)
  refine ⟨hsent, ?_, hresp 100 0⟩
  match fuel, hfuel with
  | fuel + 1, _ =>
    have hv : get_vacancies api per_page 0 = api 100 0 := by
      simp only [get_vacancies, hsent]
    by_cases hnil : (api 100 0).isEmpty
    · have he : api 100 0 = [] := List.isEmpty_iff.mp hnil
      simp [get_all_vacancies, get_all_vacancies_go, hv, he]
    · have hlen : (api 100 0).length < per_page :=
        lt_of_le_of_lt (hresp 100 0) hbig
      simp [get_all_vacancies, get_all_vacancies_go, hv, hnil, hlen]

/-- Witness for C10: requesting pages of 150 from a server that still has
items on page 1 stops after one request with the 100 items of page 0. -/
theorem get_all_vacancies_cap_witness :
    get_all_vacancies api_big 150 5 = (List.range 100, 1) ∧
    (api_big 100 1).length = 7 := by
  have h := get_all_vacancies_cap api_big 150 5 (by omega)
    (fun pp pg => by
      simp only [api_big]
      split <;> (rw [List.length_range]; exact Nat.min_le_left _ _))
    (by omega)
  refine ⟨?_, by decide⟩
  rw [h.2.1]
  decide

/-- C7: a raw record whose `salary` sub-object is null/absent normalises to a
posting with `salary_from`, `salary_to`, `salary_currency` (and `salary_gross`)
all absent — never zero or empty; a present sub-object is copied verbatim. -/
theorem parse_vacancy_salary_spec (cleanHtml normTs : String → String) (v : RawVacancy) :
    (v.salary = none →
      (parse_one_vacancy cleanHtml normTs v).salary_from = none ∧
      (parse_one_vacancy cleanHtml normTs v).salary_to = none ∧
      (parse_one_vacancy cleanHtml normTs v).salary_currency = none ∧
      (parse_one_vacancy cleanHtml normTs v).salary_gross = none) ∧
    (∀ sd, v.salary = some sd →
      (parse_one_vacancy cleanHtml normTs v).salary_from = sd.sfrom ∧
      (parse_one_vacancy cleanHtml normTs v).salary_to = sd.sto ∧
      (parse_one_vacancy cleanHtml normTs v).salary_currency = sd.currency ∧
      (parse_one_vacancy cleanHtml normTs v).salary_gross = sd.gross) := by
  constructor
  · intro h
    simp [parse_one_vacancy, _parse_salary, h]
  · intro sd h
    simp [parse_one_vacancy, _parse_salary, h]

/-- Witness for C7 at the two fixture records. -/
theorem parse_vacancy_salary_spec_witness :
    (parse_one_vacancy id id raw_no_salary).salary_from = none ∧
    (parse_one_vacancy id id raw_no_salary).salary_to = none ∧
    (parse_one_vacancy id id raw_no_salary).salary_currency = none ∧
    (parse_one_vacancy id id raw_with_salary).salary_from = some 100 ∧
    (parse_one_vacancy id id raw_with_salary).salary_to = some 200 ∧
    (parse_one_vacancy id id raw_with_salary).salary_currency = some "RUR" ∧
    (parse_one_vacancy id id raw_with_salary).salary_gross = some false := by
  have h1 := (parse_vacancy_salary_spec id id raw_no_salary).1 rfl
  have h2 := (parse_vacancy_salary_spec id id raw_with_salary).2
    ⟨some 100, some 200, some "RUR", some false⟩ rfl
  exact ⟨h1.1, h1.2.1, h1.2.2.1, h2.1, h2.2.1, h2.2.2.1, h2.2.2.2⟩

/-- Updating name/url of the row(s) with id `cid` and filtering: under unique
ids, the result is exactly the single refreshed row. -/
theorem filter_upd_companies (cid : Int) (nm u : String) :
    ∀ (l : List Company), (l.map Company.id).Nodup → l.any (fun r => r.id == cid) = true →
      (l.map (fun r => if r.id == cid then { r with name := nm, url := u } else r)).filter
        (fun r => r.id == cid) = [⟨cid, nm, u⟩] := by
  intro l
  induction l with
  | nil => intro _ h; simp at h
  | cons r t ih =>
    intro hnodup hany
    simp only [List.map_cons, List.nodup_cons, List.mem_map] at hnodup
    by_cases hr : r.id = cid
    · have hnot : ∀ x ∈ t, ¬ (x.id = cid) := by
        intro x hx hxid
        exact hnodup.1 ⟨x, hx, by rw [hxid, hr]⟩
      have hmap : t.map (fun r => if r.id == cid then { r with name := nm, url := u } else r) = t := by
        conv_rhs => rw [← List.map_id t]
        apply List.map_congr_left
        intro x hx
        simp [hnot x hx]
      have hfil : t.filter (fun r : Company => r.id == cid) = [] := by
        rw [List.filter_eq_nil_iff]
        intro x hx
        simp [hnot x hx]
      have hhead : (if (r.id == cid) = true then ({ r with name := nm, url := u } : Company) else r)
          = ⟨cid, nm, u⟩ := by
        simp [hr]
      simp only [List.map_cons, hmap, List.filter_cons, hhead]
      simp [hfil]
    · have hany' : t.any (fun r => r.id == cid) = true := by
        rcases List.any_eq_true.mp hany with ⟨x, hx, hxid⟩
        rcases List.mem_cons.mp hx with h | h
        · exfalso; apply hr; subst h; simpa using hxid
        · exact List.any_eq_true.mpr ⟨x, h, hxid⟩
      have hthis := ih hnodup.2 hany'
      have hbeq : (r.id == cid) = false := by simpa using hr
      simpa [hbeq, hr] using hthis

/-- `save_company` behaves as `INSERT … ON CONFLICT DO UPDATE … RETURNING id`:
it returns the externally supplied id, keeps ids unique, leaves the vacancies
table alone, and afterwards exactly one row with that id exists, carrying the
just-supplied name/url. -/
theorem save_company_step (s : Store) (c : CompanyData) (cid : Int)
    (hc : c.id = some cid) (hnodup : (s.companies.map Company.id).Nodup) :
    ∃ s', save_company s c = some (s', cid) ∧
      s'.companies.filter (fun r => r.id == cid) = [⟨cid, c.name, c.url⟩] ∧
      (s'.companies.map Company.id).Nodup ∧
      s'.vacancies = s.vacancies := by
  by_cases hmem : s.companies.any (fun r => r.id == cid) = true
  · have hsc : save_company s c =
        some (⟨s.companies.map
          (fun r => if r.id == cid then { r with name := c.name, url := c.url } else r),
          s.vacancies⟩, cid) := by
      simp only [save_company, hc, if_pos hmem]
    refine ⟨_, hsc, ?_, ?_, rfl⟩
    · exact filter_upd_companies cid c.name c.url s.companies hnodup hmem
    · have : (s.companies.map
          (fun r => if r.id == cid then { r with name := c.name, url := c.url } else r)).map
            Company.id = s.companies.map Company.id := by
        rw [List.map_map]
        apply List.map_congr_left
        intro x _
        by_cases hx : x.id = cid <;> simp [hx]
      show ((s.companies.map
        (fun r => if r.id == cid then { r with name := c.name, url := c.url } else r)).map
          Company.id).Nodup
      rw [this]
      exact hnodup
  · have hnot : ∀ x ∈ s.companies, ¬ (x.id = cid) := by
      intro x hx hxid
      exact hmem (List.any_eq_true.mpr ⟨x, hx, by simp [hxid]⟩)
    have hsc : save_company s c =
        some ({ s with companies := s.companies ++ [⟨cid, c.name, c.url⟩] }, cid) := by
      simp only [save_company, hc, if_neg hmem]
    refine ⟨_, hsc, ?_, ?_, rfl⟩
    · rw [List.filter_append]
      have h1 : s.companies.filter (fun r : Company => r.id == cid) = [] := by
        rw [List.filter_eq_nil_iff]
        intro x hx
        simp [hnot x hx]
      simp [h1]
    · rw [List.map_append, List.nodup_append]
      refine ⟨hnodup, by simp, ?_⟩
      intro x hx hx'
      simp only [List.map_cons, List.map_nil, List.mem_singleton] at hx'
      rcases List.mem_map.mp hx with ⟨y, hy, hyid⟩
      exact hnot y hy (hyid.trans hx')

/-- C3: re-ingesting an employer id twice stores exactly one row with that id,
holding the second record's name and url, and each call returns the
externally supplied id unchanged. -/
theorem save_company_upsert_latest (s : Store) (c1 c2 : CompanyData) (cid : Int)
    (hnodup : (s.companies.map Company.id).Nodup)
    (h1 : c1.id = some cid) (h2 : c2.id = some cid) :
    ∃ s1 s2,
      save_company s c1 = some (s1, cid) ∧
      save_company s1 c2 = some (s2, cid) ∧
      s2.companies.filter (fun r => r.id == cid) = [⟨cid, c2.name, c2.url⟩] ∧
      (s2.companies.map Company.id).Nodup ∧
      s2.vacancies = s.vacancies := by
  obtain ⟨s1, hs1, _, hnodup1, hv1⟩ := save_company_step s c1 cid h1 hnodup
  obtain ⟨s2, hs2, hfil2, hnodup2, hv2⟩ := save_company_step s1 c2 cid h2 hnodup1
  exact ⟨s1, s2, hs1, hs2, hfil2, hnodup2, by rw [hv2, hv1]⟩

/-- Witness for C3: employer 5 ingested as ("Old","u1") then ("New","u2"). -/
theorem save_company_upsert_latest_witness :
    ∃ s1 s2,
      save_company ⟨[], []⟩ ⟨some 5, "Old", "u1"⟩ = some (s1, 5) ∧
      save_company s1 ⟨some 5, "New", "u2"⟩ = some (s2, 5) ∧
      s2.companies.filter (fun r => r.id == 5) = [⟨5, "New", "u2"⟩] ∧
      (s2.companies.map Company.id).Nodup ∧
      s2.vacancies = [] :=
  save_company_upsert_latest ⟨[], []⟩ ⟨some 5, "Old", "u1"⟩ ⟨some 5, "New", "u2"⟩ 5
    (by simp) rfl rfl

/-- C4: once a posting id is stored, re-ingesting any record with the same id
is a silent no-op — the store is completely unchanged (every field keeps its
first-insert value) and no error is raised. -/
theorem save_vacancy_skip_on_conflict (s s' : Store) (v1 v2 : VacancyData)
    (h1 : save_vacancy s v1 = some s')
    (hid : v2.id = v1.id)
    (hcid : v2.company_id.isSome = true) :
    save_vacancy s' v2 = some s' := by
  obtain ⟨vid, hv1⟩ : ∃ vid, v1.id = some vid := by
    cases hv : v1.id with
    | none => cases hc : v1.company_id <;> simp [save_vacancy, hv, hc] at h1
    | some vid => exact ⟨vid, rfl⟩
  obtain ⟨c1, hc1⟩ : ∃ c1, v1.company_id = some c1 := by
    cases hc : v1.company_id with
    | none => simp [save_vacancy, hv1, hc] at h1
    | some c1 => exact ⟨c1, rfl⟩
  obtain ⟨c2, hc2⟩ : ∃ c2, v2.company_id = some c2 :=
    Option.isSome_iff_exists.mp hcid
  simp only [save_vacancy, hv1, hc1] at h1
  simp only [save_vacancy, hid, hv1, hc2]
  by_cases hany : s.vacancies.any (fun r => r.id == vid) = true
  · rw [if_pos hany] at h1
    have hss : s = s' := Option.some.inj h1
    subst hss
    rw [if_pos hany]
  · rw [if_neg hany] at h1
    by_cases hcomp : s.companies.any (fun c => c.id == c1) = true
    · rw [if_pos hcomp] at h1
      have hs' := (Option.some.inj h1).symm
      have hany' : s'.vacancies.any (fun r => r.id == vid) = true := by
        rw [hs']
        simp
      rw [if_pos hany']
    · rw [if_neg hcomp] at h1
      exact absurd h1 (by simp)

/-- Witness for C4: posting 10 stored once; a second record with id 10 and
different fields leaves the store exactly as it was. -/
theorem save_vacancy_skip_on_conflict_witness :
    save_vacancy store_c4' vd_c4_second = some store_c4' :=
  save_vacancy_skip_on_conflict store_c4 store_c4' vd_c4_first vd_c4_second
    (by decide) (by decide) (by decide)

/-- A qualifying row (at least one bound) always has a representative value. -/
theorem rep_salary_isSome (v : Vacancy) (h : has_salary v = true) :
    (rep_salary v).isSome = true := by
  unfold has_salary at h
  unfold rep_salary
  cases hf : v.salary_from <;> cases ht : v.salary_to <;> simp_all

/-- On qualifying rows, the `CASE` expression never yields `NULL`, so the
`filterMap` is a plain `map`. -/
theorem filterMap_rep_eq_map (l : List Vacancy) (h : ∀ v ∈ l, has_salary v = true) :
    l.filterMap rep_salary = l.map (fun v => (rep_salary v).getD 0) := by
  induction l with
  | nil => rfl
  | cons v t ih =>
    have hv := rep_salary_isSome v (h v (List.mem_cons_self v t))
    obtain ⟨q, hq⟩ := Option.isSome_iff_exists.mp hv
    rw [List.filterMap_cons, List.map_cons, hq]
    simp [hq, ih (fun x hx => h x (List.mem_cons_of_mem _ hx))]

/-- C1: `get_avg_salary` is the arithmetic mean of the representative values
over exactly the postings with at least one salary bound (postings with
neither bound are excluded from numerator and denominator alike), is `0` when
no posting qualifies, and evaluates to `100` on the three-posting example. -/
theorem get_avg_salary_spec (s : Store) :
    ((s.vacancies.filter has_salary).isEmpty = true → get_avg_salary s = 0) ∧
    ((s.vacancies.filter has_salary).isEmpty = false →
      get_avg_salary s =
        ((s.vacancies.filter has_salary).map (fun v => (rep_salary v).getD 0)).sum /
          ((s.vacancies.filter has_salary).length : ℚ)) ∧
    (∀ v : Vacancy, v.salary_from = none → v.salary_to = none → has_salary v = false) ∧
    (∀ (v : Vacancy) (f t : Int), v.salary_from = some f → v.salary_to = some t →
      rep_salary v = some (((f : ℚ) + (t : ℚ)) / 2)) ∧
    (∀ (v : Vacancy) (f : Int), v.salary_from = some f → v.salary_to = none →
      rep_salary v = some (f : ℚ)) ∧
    (∀ (v : Vacancy) (t : Int), v.salary_from = none → v.salary_to = some t →
      rep_salary v = some (t : ℚ)) ∧
    get_avg_salary store_c1 = 100 := by
  have hall : ∀ v ∈ s.vacancies.filter has_salary, has_salary v = true :=
    fun v hv => (List.mem_filter.mp hv).2
  have hfm := filterMap_rep_eq_map _ hall
  refine ⟨?_, ?_, ?_, ?_, ?_, ?_, ?_⟩
  · intro h
    rw [List.isEmpty_iff] at h
    simp [get_avg_salary, h]
  · intro h
    have hne : s.vacancies.filter has_salary ≠ [] := by
      intro hnil
      rw [hnil] at h
      simp at h
    unfold get_avg_salary
    rw [hfm]
    simp only [List.length_map]
    rw [if_neg (by simpa [List.length_eq_zero] using hne)]
  · intro v h1 h2
    simp [has_salary, h1, h2]
  · intro v f t h1 h2
    simp [rep_salary, h1, h2]
  · intro v f h1 h2
    simp [rep_salary, h1, h2]
  · intro v t h1 h2
    simp [rep_salary, h1, h2]
  · have h1 : store_c1.vacancies.filter has_salary =
        [mkVac 1 1 "v1" (some 100) (some 200) none, mkVac 2 1 "v2" (some 50) none none] := by
      rfl
    unfold get_avg_salary
    rw [h1]
    simp [rep_salary, mkVac, List.filterMap]
    norm_num

/-- Witness for C1: on the fixture store the filter is non-empty, the mean
formula applies, and the result is 100. -/
theorem get_avg_salary_spec_witness :
    (store_c1.vacancies.filter has_salary).isEmpty = false ∧
    get_avg_salary store_c1 =
      ((store_c1.vacancies.filter has_salary).map (fun v => (rep_salary v).getD 0)).sum /
        ((store_c1.vacancies.filter has_salary).length : ℚ) ∧
    get_avg_salary store_c1 = 100 := by
  have h := get_avg_salary_spec store_c1
  exact ⟨by decide, h.2.1 (by decide), h.2.2.2.2.2.2⟩

/-- After `save_company`, a row with the upserted id is present (whatever the
prior state), and the vacancies table is untouched. -/
theorem save_company_any (s : Store) (c : CompanyData) (cid : Int) (hc : c.id = some cid) :
    ∃ s', save_company s c = some (s', cid) ∧
      s'.companies.any (fun r => r.id == cid) = true ∧
      s'.vacancies = s.vacancies := by
  by_cases hmem : s.companies.any (fun r => r.id == cid) = true
  · have hsc : save_company s c =
        some (⟨s.companies.map
          (fun r => if r.id == cid then { r with name := c.name, url := c.url } else r),
          s.vacancies⟩, cid) := by
      simp only [save_company, hc, if_pos hmem]
    refine ⟨_, hsc, ?_, rfl⟩
    rcases List.any_eq_true.mp hmem with ⟨x, hx, hxid⟩
    apply List.any_eq_true.mpr
    refine ⟨if x.id == cid then { x with name := c.name, url := c.url } else x,
      List.mem_map.mpr ⟨x, hx, rfl⟩, ?_⟩
    have hxid' : x.id = cid := by simpa using hxid
    simp [hxid']
  · have hsc : save_company s c =
        some (⟨s.companies ++ [⟨cid, c.name, c.url⟩], s.vacancies⟩, cid) := by
      simp only [save_company, hc, if_neg hmem]
    refine ⟨_, hsc, ?_, rfl⟩
    simp

/-- `save_vacancy` never raises when the record has both ids and the
referenced company row exists: either the conflict arbiter skips it or the
row is inserted. -/
theorem save_vacancy_total (s : Store) (v : VacancyData) (vid cid : Int)
    (hv : v.id = some vid) (hc : v.company_id = some cid)
    (hpres : s.companies.any (fun r => r.id == cid) = true) :
    ∃ s', save_vacancy s v = some s' := by
  simp only [save_vacancy, hv, hc]
  by_cases hany : s.vacancies.any (fun r => r.id == vid) = true
  · exact ⟨s, by rw [if_pos hany]⟩
  · exact ⟨_, by rw [if_neg hany, if_pos hpres]⟩

/-- Loop invariant of the ingestion loop: it never raises, reports exactly
the records with a falsy employer id as skipped (in order), and a run that
skips everything leaves the store untouched. -/
theorem ingest_go (search_query : String) :
    ∀ (ps : List ParsedVacancy) (db : Store),
      (∀ p ∈ ps, company_id_truthy p.company_id = true → p.id.isSome = true) →
      ∃ final, ingest_vacancies db search_query ps =
          some (final, (ps.filter (fun p => !(company_id_truthy p.company_id))).map
            (fun p => p.id)) ∧
        ((∀ p ∈ ps, company_id_truthy p.company_id = false) → final = db) := by
  intro ps
  induction ps with
  | nil => exact fun db _ => ⟨db, rfl, fun _ => rfl⟩
  | cons p rest ih =>
    intro db hids
    by_cases ht : company_id_truthy p.company_id = true
    · obtain ⟨cid, hcid⟩ : ∃ cid, p.company_id = some cid := by
        cases hc : p.company_id with
        | none => rw [hc] at ht; simp [company_id_truthy] at ht
        | some cid => exact ⟨cid, rfl⟩
      have hec : (extract_company_from_vacancy p).id = some cid := hcid
      obtain ⟨db1, hsc, hany, -⟩ := save_company_any db _ cid hec
      obtain ⟨vid, hvid⟩ := Option.isSome_iff_exists.mp
        (hids p (List.mem_cons_self p rest) ht)
      obtain ⟨db2, hsv⟩ := save_vacancy_total db1 (extract_vacancy_data p search_query)
        vid cid hvid hcid hany
      obtain ⟨final, hf, -⟩ := ih db2 (fun x hx hxx => hids x (List.mem_cons_of_mem _ hx) hxx)
      refine ⟨final, ?_, ?_⟩
      · simp only [ingest_vacancies, if_pos ht, hsc, hsv, hf]
        simp [List.filter_cons, ht]
      · intro hall'
        exact absurd (hall' p (List.mem_cons_self p rest)) (by rw [ht]; simp)
    · have htf : company_id_truthy p.company_id = false := by simpa using ht
      obtain ⟨final, hf, hall⟩ := ih db (fun x hx hxx => hids x (List.mem_cons_of_mem _ hx) hxx)
      refine ⟨final, ?_, fun hall' => hall (fun x hx => hall' x (List.mem_cons_of_mem _ hx))⟩
      simp only [ingest_vacancies, htf, Bool.false_eq_true, if_false, hf]
      simp [List.filter_cons, htf]

/-- C9: during one ingestion run, a posting whose employer id is falsy is
skipped — its id reported, the store untouched — and ingestion continues;
a posting with an employer id has its employer upserted first and then the
posting inserted, with the run's search-query string attached as its `query`
column, and neither insert raises. -/
theorem ingest_vacancies_spec (search_query : String) (ps : List ParsedVacancy) (db : Store)
    (hids : ∀ p ∈ ps, company_id_truthy p.company_id = true → p.id.isSome = true) :
    (∃ final, ingest_vacancies db search_query ps =
        some (final, (ps.filter (fun p => !(company_id_truthy p.company_id))).map
          (fun p => p.id)) ∧
      ((∀ p ∈ ps, company_id_truthy p.company_id = false) → final = db)) ∧
    (∀ p : ParsedVacancy, (extract_vacancy_data p search_query).query = search_query) ∧
    (∀ (p : ParsedVacancy) (db0 : Store) (cid : Int), p.company_id = some cid →
      company_id_truthy p.company_id = true → p.id.isSome = true →
      ∃ db1 db2, save_company db0 (extract_company_from_vacancy p) = some (db1, cid) ∧
        save_vacancy db1 (extract_vacancy_data p search_query) = some db2 ∧
        ingest_vacancies db0 search_query [p] = some (db2, [])) := by
  refine ⟨ingest_go search_query ps db hids, fun _ => rfl, ?_⟩
  intro p db0 cid hcid ht hsome
  have hec : (extract_company_from_vacancy p).id = some cid := hcid
  obtain ⟨db1, hsc, hany, -⟩ := save_company_any db0 _ cid hec
  obtain ⟨vid, hvid⟩ := Option.isSome_iff_exists.mp hsome
  obtain ⟨db2, hsv⟩ := save_vacancy_total db1 (extract_vacancy_data p search_query)
    vid cid hvid hcid hany
  refine ⟨db1, db2, hsc, hsv, ?_⟩
  simp only [ingest_vacancies, if_pos ht, hsc, hsv]

/-- Witness for C9: a record without employer id is skipped and reported with
the store untouched; a well-formed record goes through upsert-then-insert. -/
theorem ingest_vacancies_spec_witness :
    (∃ final, ingest_vacancies ⟨[], []⟩ "py" [pv_skip] = some (final, [some 7]) ∧
      final = (⟨[], []⟩ : Store)) ∧
    (∃ db1 db2, save_company ⟨[], []⟩ (extract_company_from_vacancy pv_ok) = some (db1, 3) ∧
      save_vacancy db1 (extract_vacancy_data pv_ok "py") = some db2 ∧
      ingest_vacancies ⟨[], []⟩ "py" [pv_ok] = some (db2, [])) := by
  obtain ⟨⟨final, hf, hall⟩, -, hstep⟩ :=
    ingest_vacancies_spec "py" [pv_skip] ⟨[], []⟩ (by decide)
  constructor
  · refine ⟨final, ?_, hall (by decide)⟩
    have hlist : (([pv_skip].filter (fun p => !(company_id_truthy p.company_id))).map
        (fun p => p.id)) = [some 7] := by decide
    rw [← hlist]
    exact hf
  · exact hstep pv_ok ⟨[], []⟩ 3 (by decide) (by decide) (by decide)

/-- Counterexample for C5 as stated: with `limit = 0` and one employer the
computed top set is empty, so the claim's rule ("delete every employer not in
that set") demands an empty companies table, but the code's empty-set guard
leaves the store untouched. -/
theorem keep_only_top_companies_cex :
    top_company_ids store_c5x 0 = [] ∧
    keep_only_top_companies store_c5x 0 = store_c5x ∧
    store_c5x.companies ≠ [] ∧
    (keep_only_top_companies store_c5x 0).companies ≠
      store_c5x.companies.filter (fun c => (top_company_ids store_c5x 0).contains c.id) := by
  decide

/-- C5 (amended): `keep_only_top_companies` computes the list of at most
`limit` employer ids with the highest posting counts; when that list is
non-empty it retains exactly the postings and employers in it; when it is
empty (no employers at all, or `limit = 0`) the store is left unchanged.
On the A(3)/B(1)/C(5) example with limit 2 it retains exactly C and A with
all their postings. -/
theorem keep_only_top_companies_spec (s : Store) (limit : Nat) :
    (top_company_ids s limit = [] → keep_only_top_companies s limit = s) ∧
    (top_company_ids s limit ≠ [] →
      (keep_only_top_companies s limit).companies =
        s.companies.filter (fun c => (top_company_ids s limit).contains c.id) ∧
      (keep_only_top_companies s limit).vacancies =
        s.vacancies.filter (fun v => (top_company_ids s limit).contains v.company_id)) ∧
    (top_company_ids s limit).length = min limit s.companies.length ∧
    (∀ a ∈ top_company_ids s limit, ∃ c ∈ s.companies, c.id = a) ∧
    (∀ a ∈ top_company_ids s limit, ∀ b ∈ s.companies,
      (top_company_ids s limit).contains b.id = false →
      company_vacancy_count s b.id ≤ company_vacancy_count s a) ∧
    keep_only_top_companies store_c5 2 = store_c5_after := by
  refine ⟨?_, ?_, ?_, ?_, ?_, by decide⟩
  · intro h
    simp [keep_only_top_companies, h]
  · intro h
    have hne : ¬ ((top_company_ids s limit).isEmpty = true) := by
      intro hh
      exact h (List.isEmpty_iff.mp hh)
    constructor
    · simp only [keep_only_top_companies]
      rw [if_neg hne]
    · simp only [keep_only_top_companies]
      rw [if_neg hne]
  · simp [top_company_ids, company_counts]
  · intro a ha
    rcases List.mem_map.mp ha with ⟨pa, hpa_take, hpa_fst⟩
    have hpa_mem : pa ∈ company_counts s := by
      have := List.mem_of_mem_take hpa_take
      simpa using this
    rcases List.mem_map.mp hpa_mem with ⟨c, hc, hpc⟩
    refine ⟨c, hc, ?_⟩
    rw [← hpa_fst, ← hpc]
  · intro a ha b hb hbc
    have hsorted : List.Sorted count_ge (List.insertionSort count_ge (company_counts s)) :=
      List.sorted_insertionSort count_ge _
    rcases List.mem_map.mp ha with ⟨pa, hpa_take, hpa_fst⟩
    have hpa_mem : pa ∈ company_counts s := by
      have := List.mem_of_mem_take hpa_take
      simpa using this
    rcases List.mem_map.mp hpa_mem with ⟨c, hc, hpc⟩
    have hpa2 : pa.2 = company_vacancy_count s a := by
      rw [← hpc] at hpa_fst ⊢
      simpa using congrArg (company_vacancy_count s) hpa_fst
    have hpb_sorted : (b.id, company_vacancy_count s b.id) ∈
        List.insertionSort count_ge (company_counts s) := by
      simp only [List.mem_insertionSort]
      exact List.mem_map.mpr ⟨b, hb, rfl⟩
    have hpb_drop : (b.id, company_vacancy_count s b.id) ∈
        (List.insertionSort count_ge (company_counts s)).drop limit := by
      have hsplit :
          (List.insertionSort count_ge (company_counts s)).take limit ++
            (List.insertionSort count_ge (company_counts s)).drop limit =
          List.insertionSort count_ge (company_counts s) :=
        List.take_append_drop limit _
      have hmem2 : (b.id, company_vacancy_count s b.id) ∈
          (List.insertionSort count_ge (company_counts s)).take limit ++
            (List.insertionSort count_ge (company_counts s)).drop limit := by
        rw [hsplit]
        exact hpb_sorted
      rcases List.mem_append.mp hmem2 with hmem3 | hmem3
      · exfalso
        have hbtop : b.id ∈ top_company_ids s limit :=
          List.mem_map.mpr ⟨(b.id, company_vacancy_count s b.id), hmem3, rfl⟩
        have : (top_company_ids s limit).contains b.id = true := by
          simpa using hbtop
        rw [this] at hbc
        exact absurd hbc (by simp)
      · exact hmem3
    have hrel := List.Sorted.rel_of_mem_take_of_mem_drop hsorted hpa_take hpb_drop
    have hrel' : company_vacancy_count s b.id ≤ pa.2 := hrel
    rw [hpa2] at hrel'
    exact hrel'

/-- Witness for C5 (amended) on the A(3)/B(1)/C(5) store with limit 2. -/
theorem keep_only_top_companies_spec_witness :
    top_company_ids store_c5 2 ≠ [] ∧
    (keep_only_top_companies store_c5 2).companies =
      store_c5.companies.filter (fun c => (top_company_ids store_c5 2).contains c.id) ∧
    keep_only_top_companies store_c5 2 = store_c5_after := by
  have h := keep_only_top_companies_spec store_c5 2
  have hne : top_company_ids store_c5 2 ≠ [] := by decide
  exact ⟨hne, (h.2.1 hne).1, h.2.2.2.2.2⟩

/-- Decimal digit characters are never whitespace. -/
theorem digitChar_not_ws (m : Nat) : (Nat.digitChar m).isWhitespace = false := by
  rcases Nat.lt_or_ge m 16 with h | h
  · interval_cases m <;> decide
  · simp only [Nat.digitChar]
    repeat rw [if_neg (by omega)]
    decide

/-- Every character produced by `Nat.toDigitsCore` (over a whitespace-free
accumulator) is non-whitespace. -/
theorem toDigitsCore_not_ws (b : Nat) :
    ∀ (f n : Nat) (acc : List Char),
      (∀ c ∈ acc, c.isWhitespace = false) →
      ∀ c ∈ Nat.toDigitsCore b f n acc, c.isWhitespace = false := by
  intro f
  induction f with
  | zero =>
    intro n acc hacc c hc
    simp only [Nat.toDigitsCore] at hc
    exact hacc c hc
  | succ f ih =>
    intro n acc hacc c hc
    simp only [Nat.toDigitsCore] at hc
    have hd : ∀ x ∈ Nat.digitChar (n % b) :: acc, x.isWhitespace = false := by
      intro x hx
      rcases List.mem_cons.mp hx with h | h
      · rw [h]; exact digitChar_not_ws _
      · exact hacc x h
    split at hc
    · exact hd c hc
    · exact ih (n / b) _ hd c hc

/-- `Nat.toDigitsCore` never empties a non-empty accumulator. -/
theorem toDigitsCore_ne_nil (b : Nat) :
    ∀ (f n : Nat) (acc : List Char), acc ≠ [] → Nat.toDigitsCore b f n acc ≠ [] := by
  intro f
  induction f with
  | zero =>
    intro n acc h
    simpa [Nat.toDigitsCore] using h
  | succ f ih =>
    intro n acc h
    simp only [Nat.toDigitsCore]
    split
    · simp
    · exact ih (n / b) _ (by simp)

/-- A rendered natural number has at least one digit. -/
theorem toDigits_ne_nil (b n : Nat) : Nat.toDigits b n ≠ [] := by
  rw [Nat.toDigits]
  simp only [Nat.toDigitsCore]
  split
  · simp
  · exact toDigitsCore_ne_nil b _ _ _ (by simp)

/-- The decimal rendering of an integer is never the empty string. -/
theorem int_data_ne_nil (i : Int) : (toString i).data ≠ [] := by
  cases i with
  | ofNat m => exact toDigits_ne_nil 10 m
  | negSucc m =>
    show ('-' :: Nat.toDigits 10 (m + 1)) ≠ []
    simp

/-- The decimal rendering of an integer contains no whitespace. -/
theorem int_data_not_ws (i : Int) : ∀ c ∈ (toString i).data, c.isWhitespace = false := by
  cases i with
  | ofNat m =>
    intro c hc
    exact toDigitsCore_not_ws 10 (m + 1) m [] (by simp) c hc
  | negSucc m =>
    intro c hc
    have hc' : c ∈ ('-' :: Nat.toDigits 10 (m + 1)) := hc
    rcases List.mem_cons.mp hc' with h | h
    · rw [h]; decide
    · exact toDigitsCore_not_ws 10 (m + 2) (m + 1) [] (by simp) c h

/-- `dropWhile` over a block of whitespace continues past it. -/
theorem dropWhile_ws_all (W z : List Char) (hW : ∀ c ∈ W, c.isWhitespace = true) :
    (W ++ z).dropWhile Char.isWhitespace = z.dropWhile Char.isWhitespace := by
  induction W with
  | nil => rfl
  | cons c t ih =>
    rw [List.cons_append, List.dropWhile_cons, if_pos (hW c (List.mem_cons_self c t))]
    exact ih (fun x hx => hW x (List.mem_cons_of_mem _ hx))

/-- `dropWhile` stops at a non-matching head. -/
theorem dropWhile_cons_false {p : Char → Bool} (c : Char) (t : List Char) (h : p c = false) :
    List.dropWhile p (c :: t) = c :: t := by
  rw [List.dropWhile_cons, h]
  simp

/-- Python `strip()` on a string of the shape `body ++ trailing-whitespace`,
where the body starts with a non-whitespace character and ends with a
non-empty whitespace-free block, returns exactly the body. -/
theorem trimList_shape (c0 : Char) (Y' L W : List Char)
    (hc0 : c0.isWhitespace = false)
    (hL : L ≠ []) (hLws : ∀ c ∈ L, c.isWhitespace = false)
    (hW : ∀ c ∈ W, c.isWhitespace = true) :
    trimList ((c0 :: Y') ++ L ++ W) = (c0 :: Y') ++ L := by
  unfold trimList
  rw [List.cons_append, List.cons_append]
  rw [dropWhile_cons_false _ _ hc0]
  obtain ⟨h, t, hrev⟩ : ∃ h t, L.reverse = h :: t := by
    cases hLr : L.reverse with
    | nil => exact absurd (List.reverse_eq_nil_iff.mp hLr) hL
    | cons h t => exact ⟨h, t, rfl⟩
  have hhead : h.isWhitespace = false := by
    apply hLws h
    apply List.mem_reverse.mp
    rw [hrev]
    exact List.mem_cons_self h t
  have hrev_eq : (c0 :: (Y' ++ L ++ W)).reverse =
      W.reverse ++ (L.reverse ++ (Y'.reverse ++ [c0])) := by
    simp [List.reverse_append, List.append_assoc]
  rw [hrev_eq]
  rw [dropWhile_ws_all _ _ (fun c hc => hW c (List.mem_reverse.mp hc))]
  rw [hrev, List.cons_append]
  rw [dropWhile_cons_false _ _ hhead]
  rw [← List.cons_append, ← hrev]
  simp [List.reverse_append, List.append_assoc]

/-- Lifting `trimList_shape` to `pyStrip` at `String` level. -/
theorem pyStrip_eq_of_shape (str out : String) (c0 : Char) (Y' L W : List Char)
    (hstr : str.data = (c0 :: Y') ++ L ++ W) (hout : out.data = (c0 :: Y') ++ L)
    (hc0 : c0.isWhitespace = false)
    (hL : L ≠ []) (hLws : ∀ c ∈ L, c.isWhitespace = false)
    (hW : ∀ c ∈ W, c.isWhitespace = true) : pyStrip str = out := by
  have htrim : trimList str.data = out.data := by
    rw [hstr, hout]
    exact trimList_shape c0 Y' L W hc0 hL hLws hW
  unfold pyStrip
  rw [htrim]

/-- C6: `_format_salary` renders "от <from> до <to> <currency>" /
"от <from> <currency>" / "до <to> <currency>" according to which bounds are
present, the fixed string "не указана" when neither bound is present, omits an
absent currency entirely (the trailing separator space is stripped), and never
leaves trailing whitespace. -/
theorem format_salary_spec (f t : Int) (cur : String)
    (hcur : cur ≠ "") (hcurws : ∀ c ∈ cur.data, c.isWhitespace = false) :
    _format_salary (some f) (some t) (some cur) =
      "от " ++ toString f ++ " до " ++ toString t ++ " " ++ cur ∧
    _format_salary (some f) none (some cur) = "от " ++ toString f ++ " " ++ cur ∧
    _format_salary none (some t) (some cur) = "до " ++ toString t ++ " " ++ cur ∧
    _format_salary (some f) (some t) none = "от " ++ toString f ++ " до " ++ toString t ∧
    _format_salary (some f) none none = "от " ++ toString f ∧
    _format_salary none (some t) none = "до " ++ toString t ∧
    _format_salary none none (some cur) = "не указана" ∧
    _format_salary none none none = "не указана" := by
  have hcd : cur.data ≠ [] := by
    intro hh
    apply hcur
    cases cur with
    | mk d =>
      simp only at hh
      rw [hh]
  refine ⟨?_, ?_, ?_, ?_, ?_, ?_, rfl, rfl⟩
  · apply pyStrip_eq_of_shape _ _ 'о'
      (['т', ' '] ++ (toString f).data ++ [' ', 'д', 'о', ' '] ++ (toString t).data ++ [' '])
      cur.data []
    · show "от ".data ++ (toString f).data ++ " до ".data ++ (toString t).data ++
        " ".data ++ (orEmpty (some cur)).data = _
      simp only [List.append_assoc, List.cons_append, List.nil_append, List.append_nil]
      rfl
    · show "от ".data ++ (toString f).data ++ " до ".data ++ (toString t).data ++
        " ".data ++ cur.data = _
      simp only [List.append_assoc, List.cons_append, List.nil_append]
    · decide
    · exact hcd
    · exact hcurws
    · simp
  · apply pyStrip_eq_of_shape _ _ 'о' (['т', ' '] ++ (toString f).data ++ [' ']) cur.data []
    · show "от ".data ++ (toString f).data ++ " ".data ++ (orEmpty (some cur)).data = _
      simp only [List.append_assoc, List.cons_append, List.nil_append, List.append_nil]
      rfl
    · show "от ".data ++ (toString f).data ++ " ".data ++ cur.data = _
      simp only [List.append_assoc, List.cons_append, List.nil_append]
    · decide
    · exact hcd
    · exact hcurws
    · simp
  · apply pyStrip_eq_of_shape _ _ 'д' (['о', ' '] ++ (toString t).data ++ [' ']) cur.data []
    · show "до ".data ++ (toString t).data ++ " ".data ++ (orEmpty (some cur)).data = _
      simp only [List.append_assoc, List.cons_append, List.nil_append, List.append_nil]
      rfl
    · show "до ".data ++ (toString t).data ++ " ".data ++ cur.data = _
      simp only [List.append_assoc, List.cons_append, List.nil_append]
    · decide
    · exact hcd
    · exact hcurws
    · simp
  · apply pyStrip_eq_of_shape _ _ 'о'
      (['т', ' '] ++ (toString f).data ++ [' ', 'д', 'о', ' ']) (toString t).data [' ']
    · show "от ".data ++ (toString f).data ++ " до ".data ++ (toString t).data ++
        " ".data ++ (orEmpty none).data = _
      simp only [List.append_assoc, List.cons_append, List.nil_append, List.append_nil]
      rfl
    · show "от ".data ++ (toString f).data ++ " до ".data ++ (toString t).data = _
      simp only [List.append_assoc, List.cons_append, List.nil_append]
    · decide
    · exact int_data_ne_nil t
    · exact int_data_not_ws t
    · simp
  · apply pyStrip_eq_of_shape _ _ 'о' ['т', ' '] (toString f).data [' ']
    · show "от ".data ++ (toString f).data ++ " ".data ++ (orEmpty none).data = _
      simp only [List.append_assoc, List.cons_append, List.nil_append, List.append_nil]
      rfl
    · show "от ".data ++ (toString f).data = _
      simp only [List.cons_append]
    · decide
    · exact int_data_ne_nil f
    · exact int_data_not_ws f
    · simp
  · apply pyStrip_eq_of_shape _ _ 'д' ['о', ' '] (toString t).data [' ']
    · show "до ".data ++ (toString t).data ++ " ".data ++ (orEmpty none).data = _
      simp only [List.append_assoc, List.cons_append, List.nil_append, List.append_nil]
      rfl
    · show "до ".data ++ (toString t).data = _
      simp only [List.cons_append]
    · decide
    · exact int_data_ne_nil t
    · exact int_data_not_ws t
    · simp

/-- Witness for C6 at (100, 200, "RUR"): the three example renderings from
the specification. -/
theorem format_salary_spec_witness :
    _format_salary (some 100) (some 200) (some "RUR") = "от 100 до 200 RUR" ∧
    _format_salary (some 100) none none = "от 100" ∧
    _format_salary none none none = "не указана" := by
  obtain ⟨h1, -, -, -, h5, -, -, h8⟩ :=
    format_salary_spec 100 200 "RUR" (by decide) (by decide)
  refine ⟨?_, ?_, h8⟩
  · rw [h1]
    decide
  · rw [h5]
    decide

/-- `anySuffix` only looks at its function argument pointwise. -/
theorem anySuffix_congr (f g : List Char → Bool) (h : ∀ s, f s = g s) :
    ∀ s, anySuffix f s = anySuffix g s := by
  intro s
  induction s with
  | nil => simp [anySuffix, h]
  | cons c t ih => simp [anySuffix, h, ih]

/-- A trailing `%` after an exhausted pattern accepts every string. -/
theorem anySuffix_isEmpty (s : List Char) : anySuffix List.isEmpty s = true := by
  induction s with
  | nil => rfl
  | cons c t ih => simp [anySuffix, ih]

/-- A metacharacter-free pattern followed by `%` matches a string iff the
string starts with the pattern literally. -/
theorem likeMatch_append_pct :
    ∀ (kw : List Char), noMeta kw →
      ∀ s, likeMatch (kw ++ ['%']) s = startsWithL kw s := by
  intro kw
  induction kw with
  | nil =>
    intro _ s
    show likeMatch ['%'] s = true
    rw [likeMatch.eq_def]
    dsimp only
    rw [if_pos rfl]
    have hnil : ∀ z, likeMatch ([] : List Char) z = z.isEmpty := fun _ => rfl
    rw [anySuffix_congr _ _ hnil s]
    exact anySuffix_isEmpty s
  | cons c kw' ih =>
    intro hm s
    obtain ⟨hc1, hc2, hc3⟩ := hm c (List.mem_cons_self _ _)
    have hm' : noMeta kw' := fun x hx => hm x (List.mem_cons_of_mem _ hx)
    rw [List.cons_append, likeMatch.eq_def]
    dsimp only
    rw [if_neg hc1, if_neg hc2, if_neg hc3]
    rw [ih hm' s.tail]
    cases s with
    | nil => rfl
    | cons d t => rfl

/-- The `LIKE` pattern `%kw%` with a metacharacter-free `kw` matches exactly
the strings containing `kw` as a literal substring. -/
theorem likeMatch_pct_pattern (kw : List Char) (hm : noMeta kw) (s : List Char) :
    likeMatch ('%' :: (kw ++ ['%'])) s = containsSub kw s := by
  rw [likeMatch.eq_def]
  dsimp only
  rw [if_pos rfl]
  exact anySuffix_congr _ _ (likeMatch_append_pct kw hm) s

/-- ASCII lowering maps no character onto a `LIKE` metacharacter. -/
theorem lowerChar_noMeta (c : Char) (h : c ≠ '%' ∧ c ≠ '_' ∧ c ≠ '\\') :
    lowerChar c ≠ '%' ∧ lowerChar c ≠ '_' ∧ lowerChar c ≠ '\\' := by
  unfold lowerChar
  split
  · next hcond =>
    obtain ⟨h1, h2⟩ := hcond
    generalize hg : c.toNat = n at h1 h2 ⊢
    interval_cases n <;> exact ⟨by decide, by decide, by decide⟩
  · exact h

/-- The lowered `%kw%` pattern decomposes around the lowered keyword. -/
theorem pattern_data (kw : String) :
    ("%" ++ kw ++ "%").data.map lowerChar =
      '%' :: ((kw.data.map lowerChar) ++ ['%']) := by
  simp only [String.data_append, List.map_append]
  have h1 : ("%".data).map lowerChar = ['%'] := rfl
  rw [h1]
  simp

/-- Filtering joined rows on a vacancy-only predicate commutes with the
join. -/
theorem filter_joined (p : Vacancy → Bool) (cs : List Company) :
    ∀ l : List Vacancy,
      (l.filterMap (fun v => (cs.find? (fun c => c.id == v.company_id)).map
        (fun c => (c, v)))).filter (fun cv => p cv.2) =
      (l.filter p).filterMap (fun v => (cs.find? (fun c => c.id == v.company_id)).map
        (fun c => (c, v))) := by
  intro l
  induction l with
  | nil => rfl
  | cons v t ih =>
    cases hfind : cs.find? (fun c => c.id == v.company_id) with
    | none =>
      by_cases hp : p v = true
      · simp [List.filterMap_cons, List.filter_cons, hfind, hp, ih]
      · have hp' : p v = false := by simpa using hp
        simp [List.filterMap_cons, List.filter_cons, hfind, hp', ih]
    | some c =>
      by_cases hp : p v = true
      · simp [List.filterMap_cons, List.filter_cons, hfind, hp, ih]
      · have hp' : p v = false := by simpa using hp
        simp [List.filterMap_cons, List.filter_cons, hfind, hp', ih]

/-- C8 (amended): for every keyword free of the `LIKE` metacharacters
`%`, `_`, `\`, the keyword query returns exactly the postings whose title
contains the keyword as a case-insensitive literal substring — each joined
with its employer and carrying the formatted salary — ordered by title
ascending. -/
theorem get_vacancies_with_keyword_spec (s : Store) (kw : String)
    (hmeta : noMeta kw.data) :
    List.Perm (get_vacancies_with_keyword s kw)
      (((s.vacancies.filter (fun v =>
          containsSub (kw.data.map lowerChar) (v.name.data.map lowerChar))).filterMap
        (fun v => (s.companies.find? (fun c => c.id == v.company_id)).map
          (fun c => (c, v)))).map (fun cv => vacancy_view cv.1 cv.2)) ∧
    List.Sorted (fun a b : VacancyView => a.vacancy_name ≤ b.vacancy_name)
      (get_vacancies_with_keyword s kw) := by
  have hmeta' : noMeta (kw.data.map lowerChar) := by
    intro c hc
    rcases List.mem_map.mp hc with ⟨c0, hc0, rfl⟩
    exact lowerChar_noMeta c0 (hmeta c0 hc0)
  have hmatch : ∀ cv : Company × Vacancy,
      likeMatch (("%" ++ kw ++ "%").data.map lowerChar) (cv.2.name.data.map lowerChar) =
        containsSub (kw.data.map lowerChar) (cv.2.name.data.map lowerChar) := by
    intro cv
    rw [pattern_data]
    exact likeMatch_pct_pattern _ hmeta' _
  have hmatched :
      (joined_rows s).filter (fun cv =>
        likeMatch (("%" ++ kw ++ "%").data.map lowerChar) (cv.2.name.data.map lowerChar)) =
      (s.vacancies.filter (fun v =>
        containsSub (kw.data.map lowerChar) (v.name.data.map lowerChar))).filterMap
        (fun v => (s.companies.find? (fun c => c.id == v.company_id)).map
          (fun c => (c, v))) := by
    unfold joined_rows
    rw [List.filter_congr (fun cv _ => hmatch cv)]
    exact filter_joined (fun v =>
      containsSub (kw.data.map lowerChar) (v.name.data.map lowerChar)) s.companies s.vacancies
  constructor
  · show List.Perm ((List.insertionSort name_le _).map (fun cv => vacancy_view cv.1 cv.2)) _
    rw [← hmatched]
    exact List.Perm.map _ (List.perm_insertionSort name_le _)
  · show List.Sorted _ ((List.insertionSort name_le _).map (fun cv => vacancy_view cv.1 cv.2))
    apply List.Pairwise.map
    · intro a b hab
      exact hab
    · exact List.sorted_insertionSort name_le _

/-- Witness for C8 (amended) at keyword "x" on the one-posting store. -/
theorem get_vacancies_with_keyword_spec_witness :
    List.Perm (get_vacancies_with_keyword store_c8 "x")
      (((store_c8.vacancies.filter (fun v =>
          containsSub ("x".data.map lowerChar) (v.name.data.map lowerChar))).filterMap
        (fun v => (store_c8.companies.find? (fun c => c.id == v.company_id)).map
          (fun c => (c, v)))).map (fun cv => vacancy_view cv.1 cv.2)) ∧
    List.Sorted (fun a b : VacancyView => a.vacancy_name ≤ b.vacancy_name)
      (get_vacancies_with_keyword store_c8 "x") :=
  get_vacancies_with_keyword_spec store_c8 "x" (by decide)

/-- Counterexample for C8 as stated: the keyword "_" is a `LIKE` wildcard, so
the query returns the posting titled "x" although "x" does not contain "_" as
a literal substring. -/
theorem get_vacancies_with_keyword_cex :
    (get_vacancies_with_keyword store_c8 "_").length = 1 ∧
    containsSub ("_".data.map lowerChar) ("x".data.map lowerChar) = false := by
  decide

end HH
